import Mathlib

/-!
Verification of the hathor-core consensus/utility specification against the
repository source.  Pure functions from `hathor/util.py` and the constants of
`hathor/conf/settings.py` are embedded directly; the consensus-engine
operations whose implementation is not part of the shown source are modelled
from the specification (each such definition carries a doc comment starting
with `Modelled from the spec:`), with tie-breaking behaviour pinned by the
repository's own test `tests/p2p/test_twin_tx.py` where the two disagree.
Python machine integers are embedded as `Int`/`Nat` (Python ints are
arbitrary precision, so no wrap-around is involved) and Python floats used
for weights as `Rat` (all weight arithmetic in the claims is exact at the
values involved).
-/

namespace Hathor

/-- Number of decimal places of the token, from `hathor/conf/settings.py`. -/
def DECIMAL_PLACES : ℕ := 2

/-- `BLOCKS_PER_HALVING = 2 * 60 * 24 * 365`, from `hathor/conf/settings.py`;
`none` would disable halving. -/
def BLOCKS_PER_HALVING : Option ℤ := some (2 * 60 * 24 * 365)

/-- `INITIAL_TOKEN_UNITS_PER_BLOCK = 64`, from `hathor/conf/settings.py`. -/
def INITIAL_TOKEN_UNITS_PER_BLOCK : ℕ := 64

/-- `INITIAL_TOKENS_PER_BLOCK`, from `hathor/conf/settings.py`. -/
def INITIAL_TOKENS_PER_BLOCK : ℕ := INITIAL_TOKEN_UNITS_PER_BLOCK * 10 ^ DECIMAL_PLACES

/-- `MINIMUM_TOKEN_UNITS_PER_BLOCK = 8`, from `hathor/conf/settings.py`. -/
def MINIMUM_TOKEN_UNITS_PER_BLOCK : ℕ := 8

/-- `MINIMUM_TOKENS_PER_BLOCK`, from `hathor/conf/settings.py`. -/
def MINIMUM_TOKENS_PER_BLOCK : ℕ := MINIMUM_TOKEN_UNITS_PER_BLOCK * 10 ^ DECIMAL_PLACES

/-- `MAXIMUM_NUMBER_OF_HALVINGS = int(log(64, 2) - log(8, 2)) = int(6.0 - 3.0) = 3`,
from `hathor/conf/settings.py` (both logarithms are exact in floating point). -/
def MAXIMUM_NUMBER_OF_HALVINGS : ℤ := 3

/-- `MIN_BLOCK_WEIGHT = 21`, from `hathor/conf/settings.py`. -/
def MIN_BLOCK_WEIGHT : ℚ := 21

/-- `MIN_TX_WEIGHT = 14`, from `hathor/conf/settings.py`. -/
def MIN_TX_WEIGHT : ℚ := 14

/-- `BLOCK_DIFFICULTY_MAX_DW = 0.25`, from `hathor/conf/settings.py`
(0.25 is exactly representable, so the rational value is exact). -/
def BLOCK_DIFFICULTY_MAX_DW : ℚ := 1 / 4

/-- `WEIGHT_TOL = 1e-10`, from `hathor/conf/settings.py`: the tolerance used
for all weight comparisons (`w1 > w2 + WEIGHT_TOL` means strictly greater). -/
def WEIGHT_TOL : ℚ := 1 / 10 ^ 10

/-- `MAX_FUTURE_TIMESTAMP_ALLOWED = 3600`, from `hathor/conf/settings.py`. -/
def MAX_FUTURE_TIMESTAMP_ALLOWED : ℤ := 3600

/-- `_get_tokens_issued_per_block(height)` from `hathor/util.py`.
Python `//` on integers is floor division, embedded as `Int.fdiv`; the final
`amount = INITIAL_TOKENS_PER_BLOCK // (2**number_of_halvings)` divides
non-negative integers, embedded as `Nat` division. -/
def getTokensIssuedPerBlock (height : ℤ) : ℕ :=
  match BLOCKS_PER_HALVING with
  | none => MINIMUM_TOKENS_PER_BLOCK
  | some bph =>
    let numberOfHalvings : ℤ := max 0 ((height - 1).fdiv bph)
    if MAXIMUM_NUMBER_OF_HALVINGS < numberOfHalvings then
      MINIMUM_TOKENS_PER_BLOCK
    else
      max (INITIAL_TOKENS_PER_BLOCK / 2 ^ numberOfHalvings.toNat) MINIMUM_TOKENS_PER_BLOCK

lemma tokensAmount_antitone (m k : ℕ) (h : m ≤ k) :
    max (INITIAL_TOKENS_PER_BLOCK / 2 ^ k) MINIMUM_TOKENS_PER_BLOCK ≤
      max (INITIAL_TOKENS_PER_BLOCK / 2 ^ m) MINIMUM_TOKENS_PER_BLOCK := by
  apply max_le
  · exact le_max_of_le_left
      (Nat.div_le_div_left (Nat.pow_le_pow_right (by norm_num) h) (Nat.pos_pow_of_pos m (by norm_num)))
  · exact le_max_right _ _

lemma tokensAmount_bounds (m : ℕ) :
    MINIMUM_TOKENS_PER_BLOCK ≤
        max (INITIAL_TOKENS_PER_BLOCK / 2 ^ m) MINIMUM_TOKENS_PER_BLOCK ∧
      max (INITIAL_TOKENS_PER_BLOCK / 2 ^ m) MINIMUM_TOKENS_PER_BLOCK ≤
        INITIAL_TOKENS_PER_BLOCK := by
  constructor
  · exact le_max_right _ _
  · apply max_le (Nat.div_le_self _ _)
    simp [MINIMUM_TOKENS_PER_BLOCK, INITIAL_TOKENS_PER_BLOCK,
      MINIMUM_TOKEN_UNITS_PER_BLOCK, INITIAL_TOKEN_UNITS_PER_BLOCK]

/-- C8: for every integer height, `_get_tokens_issued_per_block` stays between
`MINIMUM_TOKENS_PER_BLOCK` (800) and `INITIAL_TOKENS_PER_BLOCK` (6400)
inclusive, and the returned amount is non-increasing as the height grows. -/
theorem tokens_issued_per_block_bounds_antitone (h1 h2 : ℤ) (hle : h1 ≤ h2) :
    MINIMUM_TOKENS_PER_BLOCK ≤ getTokensIssuedPerBlock h1 ∧
      getTokensIssuedPerBlock h1 ≤ INITIAL_TOKENS_PER_BLOCK ∧
      getTokensIssuedPerBlock h2 ≤ getTokensIssuedPerBlock h1 := by
  have hbph : BLOCKS_PER_HALVING = some (2 * 60 * 24 * 365) := rfl
  unfold getTokensIssuedPerBlock
  rw [hbph]
  simp only
  set n1 : ℤ := max 0 ((h1 - 1).fdiv (2 * 60 * 24 * 365)) with hn1
  set n2 : ℤ := max 0 ((h2 - 1).fdiv (2 * 60 * 24 * 365)) with hn2
  have hfd : (h1 - 1).fdiv (2 * 60 * 24 * 365) ≤ (h2 - 1).fdiv (2 * 60 * 24 * 365) := by
    rw [Int.fdiv_eq_ediv _ (by norm_num), Int.fdiv_eq_ediv _ (by norm_num)]
    exact Int.ediv_le_ediv (by norm_num) (by omega)
  have hn12 : n1 ≤ n2 := by
    rw [hn1, hn2]
    exact max_le_max le_rfl hfd
  have hminle : MINIMUM_TOKENS_PER_BLOCK ≤ INITIAL_TOKENS_PER_BLOCK := by
    simp [MINIMUM_TOKENS_PER_BLOCK, INITIAL_TOKENS_PER_BLOCK,
      MINIMUM_TOKEN_UNITS_PER_BLOCK, INITIAL_TOKEN_UNITS_PER_BLOCK]
  by_cases hc1 : MAXIMUM_NUMBER_OF_HALVINGS < n1
  · have hc2 : MAXIMUM_NUMBER_OF_HALVINGS < n2 := lt_of_lt_of_le hc1 hn12
    simp only [if_pos hc1, if_pos hc2]
    exact ⟨le_refl _, hminle, le_refl _⟩
  · simp only [if_neg hc1]
    refine ⟨(tokensAmount_bounds n1.toNat).1, (tokensAmount_bounds n1.toNat).2, ?_⟩
    by_cases hc2 : MAXIMUM_NUMBER_OF_HALVINGS < n2
    · simp only [if_pos hc2]
      exact le_max_right _ _
    · simp only [if_neg hc2]
      exact tokensAmount_antitone n1.toNat n2.toNat (Int.toNat_le_toNat hn12)

/-- C8 witness: at heights 1 and 1051201 (one halving later) the bounds hold
and the amount does not increase. -/
theorem tokens_issued_per_block_bounds_antitone_witness :
    MINIMUM_TOKENS_PER_BLOCK ≤ getTokensIssuedPerBlock 1 ∧
      getTokensIssuedPerBlock 1 ≤ INITIAL_TOKENS_PER_BLOCK ∧
      getTokensIssuedPerBlock 1051201 ≤ getTokensIssuedPerBlock 1 :=
  tokens_issued_per_block_bounds_antitone 1 1051201 (by norm_num)

/-- Python tail slice `data[-t:]`: for `t = 0` Python reads it as `data[0:]`,
the whole sequence; otherwise it is the final `t` elements. -/
def pyTailSlice (data : List ℕ) (t : ℕ) : List ℕ :=
  if t = 0 then data else data.drop (data.length - t)

/-- `abbrev(data, max_len, gap)` from `hathor/util.py` (bytes embedded as lists
of byte values).  When the data is longer than `max_len` it keeps
`trim_len - tail_len` leading bytes and `tail_len = trim_len // 2` trailing
bytes around the gap, where `trim_len = max_len - len(gap)` (the source asserts
`trim_len > 1`, which holds under the claim's hypothesis, so `Nat` subtraction
agrees with Python subtraction). -/
def abbrevBytes (data : List ℕ) (maxLen : ℕ) (gap : List ℕ) : List ℕ :=
  if data.length ≤ maxLen then data
  else
    let trimLen := maxLen - gap.length
    let tailLen := trimLen / 2
    let headLen := trimLen - tailLen
    data.take headLen ++ gap ++ pyTailSlice data tailLen

/-- C9: with `len(gap) ≤ max_len - 2`, `abbrev` returns short data unchanged;
long data becomes a result of length exactly `max_len`, made of a non-empty
prefix of the data, the gap, and a non-empty suffix of the data. -/
theorem abbrev_short_id_long_trimmed (data gap : List ℕ) (maxLen : ℕ)
    (hgap : gap.length + 2 ≤ maxLen) :
    (data.length ≤ maxLen → abbrevBytes data maxLen gap = data) ∧
      (maxLen < data.length →
        (abbrevBytes data maxLen gap).length = maxLen ∧
          ∃ m k, 0 < m ∧ 0 < k ∧ m + gap.length + k = maxLen ∧
            abbrevBytes data maxLen gap =
              data.take m ++ gap ++ data.drop (data.length - k)) := by
  constructor
  · intro hle
    simp [abbrevBytes, hle]
  · intro hgt
    have hnotle : ¬ data.length ≤ maxLen := not_le.mpr hgt
    have habbrev : abbrevBytes data maxLen gap =
        data.take ((maxLen - gap.length) - (maxLen - gap.length) / 2) ++ gap ++
          pyTailSlice data ((maxLen - gap.length) / 2) := by
      simp only [abbrevBytes, if_neg hnotle]
    have htail0 : ¬ (maxLen - gap.length) / 2 = 0 := by omega
    have htail : pyTailSlice data ((maxLen - gap.length) / 2) =
        data.drop (data.length - (maxLen - gap.length) / 2) := by
      simp only [pyTailSlice, if_neg htail0]
    rw [habbrev, htail]
    have hlen : (data.take ((maxLen - gap.length) - (maxLen - gap.length) / 2) ++ gap ++
        data.drop (data.length - (maxLen - gap.length) / 2)).length = maxLen := by
      simp only [List.length_append, List.length_take, List.length_drop]
      omega
    refine ⟨hlen, (maxLen - gap.length) - (maxLen - gap.length) / 2,
      (maxLen - gap.length) / 2, by omega, by omega, by omega, rfl⟩

/-- C9 witness: the docstring example `abbrev(b'foobar barbaz', 9, b'...')`
(13 bytes, max length 9, 3-byte gap) satisfies both branches of the claim. -/
theorem abbrev_short_id_long_trimmed_witness :
    ([46, 46, 46] : List ℕ).length + 2 ≤ 9 ∧
      (([102, 111, 111, 98, 97, 114, 32, 98, 97, 114, 98, 97, 122] : List ℕ).length ≤ 9 →
          abbrevBytes [102, 111, 111, 98, 97, 114, 32, 98, 97, 114, 98, 97, 122] 9 [46, 46, 46] =
            [102, 111, 111, 98, 97, 114, 32, 98, 97, 114, 98, 97, 122]) ∧
        (9 < ([102, 111, 111, 98, 97, 114, 32, 98, 97, 114, 98, 97, 122] : List ℕ).length →
          (abbrevBytes [102, 111, 111, 98, 97, 114, 32, 98, 97, 114, 98, 97, 122] 9
              [46, 46, 46]).length = 9 ∧
            ∃ m k, 0 < m ∧ 0 < k ∧ m + ([46, 46, 46] : List ℕ).length + k = 9 ∧
              abbrevBytes [102, 111, 111, 98, 97, 114, 32, 98, 97, 114, 98, 97, 122] 9
                  [46, 46, 46] =
                ([102, 111, 111, 98, 97, 114, 32, 98, 97, 114, 98, 97, 122] : List ℕ).take m ++
                  [46, 46, 46] ++
                  ([102, 111, 111, 98, 97, 114, 32, 98, 97, 114, 98, 97, 122] : List ℕ).drop
                    (([102, 111, 111, 98, 97, 114, 32, 98, 97, 114, 98, 97, 122] : List ℕ).length - k)) :=
  ⟨by decide,
    abbrev_short_id_long_trimmed [102, 111, 111, 98, 97, 114, 32, 98, 97, 114, 98, 97, 122]
      [46, 46, 46] 9 (by decide)⟩

/-- `ichunks(array, chunk_size)` from `hathor/util.py`: repeatedly takes the
next `chunk_size` elements of the iterator and stops at the first empty slice
(`takewhile(bool, ...)`).  With `chunk_size = 0` the very first slice is empty,
so the stream is empty. -/
def ichunks (array : List ℕ) (chunkSize : ℕ) : List (List ℕ) :=
  if chunkSize = 0 ∨ array = [] then []
  else array.take chunkSize :: ichunks (array.drop chunkSize) chunkSize
termination_by array.length
decreasing_by
  rename_i h
  push_neg at h
  have h1 : array.length ≠ 0 := fun hz => h.2 (List.eq_nil_of_length_eq_zero hz)
  simp only [List.length_drop]
  omega

lemma ichunks_eq_nil_of_nil (n : ℕ) : ichunks [] n = [] := by
  rw [ichunks]
  simp

lemma ichunks_join (array : List ℕ) (n : ℕ) (hn : 0 < n) :
    (ichunks array n).flatten = array := by
  by_cases h : array = []
  · subst h
    rw [ichunks_eq_nil_of_nil]
    rfl
  · rw [ichunks, if_neg (by simp [h, Nat.pos_iff_ne_zero.mp hn])]
    have ih : (ichunks (array.drop n) n).flatten = array.drop n :=
      ichunks_join (array.drop n) n hn
    simp [List.flatten, ih]
termination_by array.length
decreasing_by
  have h1 : array.length ≠ 0 := fun hz => h (List.eq_nil_of_length_eq_zero hz)
  simp only [List.length_drop]
  omega

lemma ichunks_mem_len (array : List ℕ) (n : ℕ) (hn : 0 < n) :
    ∀ c ∈ ichunks array n, c ≠ [] ∧ c.length ≤ n := by
  by_cases h : array = []
  · subst h
    rw [ichunks_eq_nil_of_nil]
    intro c hc
    exact absurd hc (List.not_mem_nil c)
  · rw [ichunks, if_neg (by simp [h, Nat.pos_iff_ne_zero.mp hn])]
    intro c hc
    rcases List.mem_cons.mp hc with hc | hc
    · subst hc
      constructor
      · have h1 : array.length ≠ 0 := fun hz => h (List.eq_nil_of_length_eq_zero hz)
        intro habs
        have := congrArg List.length habs
        simp only [List.length_take, List.length_nil] at this
        omega
      · simp only [List.length_take]
        exact min_le_left _ _
    · exact ichunks_mem_len (array.drop n) n hn c hc
termination_by array.length
decreasing_by
  have h1 : array.length ≠ 0 := fun hz => h (List.eq_nil_of_length_eq_zero hz)
  simp only [List.length_drop]
  omega

lemma ichunks_dropLast_len (array : List ℕ) (n : ℕ) (hn : 0 < n) :
    ∀ c ∈ (ichunks array n).dropLast, c.length = n := by
  by_cases h : array = []
  · subst h
    rw [ichunks_eq_nil_of_nil]
    intro c hc
    exact absurd hc (List.not_mem_nil c)
  · rw [ichunks, if_neg (by simp [h, Nat.pos_iff_ne_zero.mp hn])]
    intro c hc
    by_cases hrest : ichunks (array.drop n) n = []
    · rw [hrest] at hc
      exact absurd hc (List.not_mem_nil c)
    · rw [List.dropLast_cons_of_ne_nil hrest] at hc
      rcases List.mem_cons.mp hc with hc | hc
      · subst hc
        have hdropne : array.drop n ≠ [] := by
          intro hd
          exact hrest (by rw [hd, ichunks_eq_nil_of_nil])
        have hlen : n < array.length := by
          by_contra hnot
          exact hdropne (List.drop_eq_nil_iff.mpr (by omega))
        simp only [List.length_take]
        omega
      · exact ichunks_dropLast_len (array.drop n) n hn c hc
termination_by array.length
decreasing_by
  have h1 : array.length ≠ 0 := fun hz => h (List.eq_nil_of_length_eq_zero hz)
  simp only [List.length_drop]
  omega

/-- C10: for `chunk_size > 0`, concatenating the chunks of `ichunks`
reproduces the array; every chunk is non-empty of length at most `chunk_size`,
and every chunk except possibly the last has length exactly `chunk_size`. -/
theorem ichunks_concat_and_sizes (array : List ℕ) (n : ℕ) (hn : 0 < n) :
    (ichunks array n).flatten = array ∧
      (∀ c ∈ ichunks array n, c ≠ [] ∧ c.length ≤ n) ∧
      ∀ c ∈ (ichunks array n).dropLast, c.length = n :=
  ⟨ichunks_join array n hn, ichunks_mem_len array n hn, ichunks_dropLast_len array n hn⟩

/-- C10 witness: splitting a 7-element array into chunks of 3. -/
theorem ichunks_concat_and_sizes_witness :
    (ichunks [1, 2, 3, 4, 5, 6, 7] 3).flatten = [1, 2, 3, 4, 5, 6, 7] ∧
      (∀ c ∈ ichunks [1, 2, 3, 4, 5, 6, 7] 3, c ≠ [] ∧ c.length ≤ 3) ∧
      ∀ c ∈ (ichunks [1, 2, 3, 4, 5, 6, 7] 3).dropLast, c.length = 3 :=
  ichunks_concat_and_sizes [1, 2, 3, 4, 5, 6, 7] 3 (by decide)

/-- Modelled from the spec: a DAG vertex of the transaction kind (§3 Data
Model); the consensus engine itself is not part of the shown source.  Parents,
inputs (the consumed resources used for conflict detection) and output
references are embedded as natural-number identifiers, amounts as pairs,
weight as an exact rational, timestamp as an integer. -/
structure Vertex where
  parents : List ℕ
  inputs : List ℕ
  outputs : List (ℕ × ℕ)
  weight : ℚ
  timestamp : ℤ
deriving DecidableEq

/-- Injective encoding of a list of naturals into a natural, used to model
the content hash. -/
def encodeNatList : List ℕ → ℕ
  | [] => 0
  | a :: rest => Nat.pair a (encodeNatList rest) + 1

lemma encodeNatList_injective : Function.Injective encodeNatList := by
  intro xs
  induction xs with
  | nil =>
    intro ys h
    cases ys with
    | nil => rfl
    | cons b rest => simp [encodeNatList] at h
  | cons a rest ih =>
    intro ys h
    cases ys with
    | nil => simp [encodeNatList] at h
    | cons b rest2 =>
      simp only [encodeNatList, Nat.add_right_cancel_iff] at h
      obtain ⟨h1, h2⟩ := Nat.pair_eq_pair.mp h
      rw [h1, ih h2]

/-- Injective encoding of an integer into a natural. -/
def encodeInt (z : ℤ) : ℕ := if 0 ≤ z then 2 * z.toNat else 2 * (-z).toNat - 1

lemma encodeInt_injective : Function.Injective encodeInt := by
  intro a b h
  unfold encodeInt at h
  split at h <;> split at h <;> omega

/-- Injective encoding of a rational into a natural. -/
def encodeRat (q : ℚ) : ℕ := Nat.pair (encodeInt q.num) q.den

lemma encodeRat_injective : Function.Injective encodeRat := by
  intro a b h
  obtain ⟨h1, h2⟩ := Nat.pair_eq_pair.mp h
  exact Rat.ext (encodeInt_injective h1) h2

/-- Modelled from the spec: the content-derived vertex id — "hash over the
serialized vertex", with "identical content ⇒ identical id; changing *any*
field (including parent order) changes the id" (§3).  The concrete hash
function is not part of the shown source, so it is modelled as an explicit
injective encoding of the complete vertex content, which captures exactly the
specified property. -/
def txId (v : Vertex) : ℕ :=
  Nat.pair (encodeNatList v.parents)
    (Nat.pair (encodeNatList v.inputs)
      (Nat.pair (encodeNatList (v.outputs.map (fun p => Nat.pair p.1 p.2)))
        (Nat.pair (encodeRat v.weight) (encodeInt v.timestamp))))

lemma txId_injective : Function.Injective txId := by
  intro a b h
  unfold txId at h
  obtain ⟨h1, h2⟩ := Nat.pair_eq_pair.mp h
  obtain ⟨h3, h4⟩ := Nat.pair_eq_pair.mp h2
  obtain ⟨h5, h6⟩ := Nat.pair_eq_pair.mp h4
  obtain ⟨h7, h8⟩ := Nat.pair_eq_pair.mp h6
  have hparents := encodeNatList_injective h1
  have hinputs := encodeNatList_injective h3
  have houtputs : a.outputs = b.outputs := by
    have hmap := encodeNatList_injective h5
    have hinj : Function.Injective (fun p : ℕ × ℕ => Nat.pair p.1 p.2) := by
      intro x y hxy
      obtain ⟨hx, hy⟩ := Nat.pair_eq_pair.mp hxy
      exact Prod.ext hx hy
    exact List.map_injective_iff.mpr hinj hmap
  have hweight := encodeRat_injective h7
  have hts := encodeInt_injective h8
  cases a
  cases b
  simp_all

/-- Modelled from the spec: DagWalker ancestor traversal — the ids of every
vertex reachable from `v` through parent references inside the processed
state `S`; `fuel` bounds the depth (the DAG is finite and acyclic, so
`S.length` levels always suffice). -/
def ancestorIds (S : List Vertex) : ℕ → Vertex → Finset ℕ
  | 0, _ => ∅
  | fuel + 1, v =>
    v.parents.toFinset ∪
      (S.filter (fun u => decide (txId u ∈ v.parents))).foldr
        (fun u acc => ancestorIds S fuel u ∪ acc) ∅

/-- Modelled from the spec: two vertices are causally related when one is an
ancestor of the other (such pairs are never conflicts, §4.3). -/
def Related (S : List Vertex) (a b : Vertex) : Prop :=
  txId a ∈ ancestorIds S S.length b ∨ txId b ∈ ancestorIds S S.length a

instance instDecidableRelated (S : List Vertex) (a b : Vertex) : Decidable (Related S a b) := by
  unfold Related
  exact inferInstance

/-- Modelled from the spec: the two vertices consume at least one overlapping
resource (a common transaction input). -/
def SharesInput (a b : Vertex) : Prop := ∃ i ∈ a.inputs, i ∈ b.inputs

instance instDecidableSharesInput (a b : Vertex) : Decidable (SharesInput a b) := by
  unfold SharesInput
  exact inferInstance

/-- Modelled from the spec: ConflictResolver.find_conflicts membership — a
distinct vertex that shares a consumed input and is not an ancestor or
descendant of the other (§4.3). -/
def Conflicts (S : List Vertex) (a b : Vertex) : Prop :=
  txId a ≠ txId b ∧ SharesInput a b ∧ ¬ Related S a b

instance instDecidableConflicts (S : List Vertex) (a b : Vertex) : Decidable (Conflicts S a b) := by
  unfold Conflicts
  exact inferInstance

/-- Modelled from the spec: the metadata field `conflict_with` of vertex `a`
in processed state `S` — the ids of every processed vertex in conflict with
`a`. -/
def conflictWith (S : List Vertex) (a : Vertex) : Finset ℕ :=
  ((S.filter (fun u => decide (Conflicts S a u))).map txId).toFinset

/-- Modelled from the spec: TwinClassifier.classify — a conflicting pair with
identical ordered input list and identical unordered (by value) output list
(§4.4); parents, weight and timestamp may differ. -/
def IsTwin (S : List Vertex) (a b : Vertex) : Prop :=
  Conflicts S a b ∧ a.inputs = b.inputs ∧
    (a.outputs : Multiset (ℕ × ℕ)) = (b.outputs : Multiset (ℕ × ℕ))

instance instDecidableIsTwin (S : List Vertex) (a b : Vertex) : Decidable (IsTwin S a b) := by
  unfold IsTwin
  exact inferInstance

/-- Modelled from the spec: the metadata field `twins` of vertex `a` in
processed state `S`. -/
def twinsOf (S : List Vertex) (a : Vertex) : Finset ℕ :=
  ((S.filter (fun u => decide (IsTwin S a u))).map txId).toFinset

lemma conflicts_symm {S : List Vertex} {a b : Vertex} (h : Conflicts S a b) :
    Conflicts S b a := by
  obtain ⟨h1, h2, h3⟩ := h
  refine ⟨h1.symm, ?_, ?_⟩
  · obtain ⟨i, hia, hib⟩ := h2
    exact ⟨i, hib, hia⟩
  · intro hr
    exact h3 (Or.symm hr)

lemma isTwin_symm {S : List Vertex} {a b : Vertex} (h : IsTwin S a b) :
    IsTwin S b a :=
  ⟨conflicts_symm h.1, h.2.1.symm, h.2.2.symm⟩

lemma mem_conflictWith {S : List Vertex} {a : Vertex} {x : ℕ} :
    x ∈ conflictWith S a ↔ ∃ u ∈ S, Conflicts S a u ∧ txId u = x := by
  simp only [conflictWith, List.mem_toFinset, List.mem_map, List.mem_filter,
    decide_eq_true_eq]
  constructor
  · rintro ⟨u, ⟨hu, hc⟩, hx⟩
    exact ⟨u, hu, hc, hx⟩
  · rintro ⟨u, hu, hc, hx⟩
    exact ⟨u, ⟨hu, hc⟩, hx⟩

lemma mem_twinsOf {S : List Vertex} {a : Vertex} {x : ℕ} :
    x ∈ twinsOf S a ↔ ∃ u ∈ S, IsTwin S a u ∧ txId u = x := by
  simp only [twinsOf, List.mem_toFinset, List.mem_map, List.mem_filter,
    decide_eq_true_eq]
  constructor
  · rintro ⟨u, ⟨hu, hc⟩, hx⟩
    exact ⟨u, hu, hc, hx⟩
  · rintro ⟨u, hu, hc, hx⟩
    exact ⟨u, ⟨hu, hc⟩, hx⟩

/-- C3: the conflict relation is symmetric — for every pair of processed
vertices, `b.id ∈ a.conflict_with ↔ a.id ∈ b.conflict_with`. -/
theorem conflict_with_symmetric (S : List Vertex) (a b : Vertex)
    (ha : a ∈ S) (hb : b ∈ S) :
    txId b ∈ conflictWith S a ↔ txId a ∈ conflictWith S b := by
  rw [mem_conflictWith, mem_conflictWith]
  constructor
  · rintro ⟨u, hu, hc, hid⟩
    have hub : u = b := txId_injective hid
    subst hub
    exact ⟨a, ha, conflicts_symm hc, rfl⟩
  · rintro ⟨u, hu, hc, hid⟩
    have hua : u = a := txId_injective hid
    subst hua
    exact ⟨b, hb, conflicts_symm hc, rfl⟩

/-- C3 witness: symmetry at a concrete two-element processed state consisting
of a transaction and its parent-swapped twin. -/
theorem conflict_with_symmetric_witness :
    txId ⟨[2, 1], [5], [(7, 3)], 14, 0⟩ ∈
        conflictWith [⟨[1, 2], [5], [(7, 3)], 14, 0⟩, ⟨[2, 1], [5], [(7, 3)], 14, 0⟩]
          ⟨[1, 2], [5], [(7, 3)], 14, 0⟩ ↔
      txId ⟨[1, 2], [5], [(7, 3)], 14, 0⟩ ∈
        conflictWith [⟨[1, 2], [5], [(7, 3)], 14, 0⟩, ⟨[2, 1], [5], [(7, 3)], 14, 0⟩]
          ⟨[2, 1], [5], [(7, 3)], 14, 0⟩ :=
  conflict_with_symmetric _ _ _ (by simp) (by simp)

/-- C4: twins is always a subset of conflict_with; the twin relation is
symmetric; and a conflicting vertex whose output multiset differs is reported
in conflict_with but not in twins. -/
theorem twins_subset_conflicts_and_symmetric (S : List Vertex) (a b : Vertex)
    (ha : a ∈ S) (hb : b ∈ S) :
    twinsOf S a ⊆ conflictWith S a ∧
      (txId b ∈ twinsOf S a ↔ txId a ∈ twinsOf S b) ∧
      (Conflicts S a b →
        (a.outputs : Multiset (ℕ × ℕ)) ≠ (b.outputs : Multiset (ℕ × ℕ)) →
        txId b ∈ conflictWith S a ∧ txId b ∉ twinsOf S a) := by
  refine ⟨?_, ?_, ?_⟩
  · intro x hx
    obtain ⟨u, hu, ht, hid⟩ := mem_twinsOf.mp hx
    exact mem_conflictWith.mpr ⟨u, hu, ht.1, hid⟩
  · rw [mem_twinsOf, mem_twinsOf]
    constructor
    · rintro ⟨u, hu, ht, hid⟩
      have hub : u = b := txId_injective hid
      subst hub
      exact ⟨a, ha, isTwin_symm ht, rfl⟩
    · rintro ⟨u, hu, ht, hid⟩
      have hua : u = a := txId_injective hid
      subst hua
      exact ⟨b, hb, isTwin_symm ht, rfl⟩
  · intro hc hout
    refine ⟨mem_conflictWith.mpr ⟨b, hb, hc, rfl⟩, ?_⟩
    intro hx
    obtain ⟨u, hu, ht, hid⟩ := mem_twinsOf.mp hx
    have hub : u = b := txId_injective hid
    subst hub
    exact hout ht.2.2

/-- C4 witness: the twin properties at a concrete processed state holding a
transaction and a conflicting non-twin (same inputs, different outputs). -/
theorem twins_subset_conflicts_and_symmetric_witness :
    twinsOf [⟨[1, 2], [5], [(7, 3)], 14, 0⟩, ⟨[1, 2], [5], [(7, 4)], 14, 0⟩]
        ⟨[1, 2], [5], [(7, 3)], 14, 0⟩ ⊆
      conflictWith [⟨[1, 2], [5], [(7, 3)], 14, 0⟩, ⟨[1, 2], [5], [(7, 4)], 14, 0⟩]
        ⟨[1, 2], [5], [(7, 3)], 14, 0⟩ ∧
      (txId ⟨[1, 2], [5], [(7, 4)], 14, 0⟩ ∈
          twinsOf [⟨[1, 2], [5], [(7, 3)], 14, 0⟩, ⟨[1, 2], [5], [(7, 4)], 14, 0⟩]
            ⟨[1, 2], [5], [(7, 3)], 14, 0⟩ ↔
        txId ⟨[1, 2], [5], [(7, 3)], 14, 0⟩ ∈
          twinsOf [⟨[1, 2], [5], [(7, 3)], 14, 0⟩, ⟨[1, 2], [5], [(7, 4)], 14, 0⟩]
            ⟨[1, 2], [5], [(7, 4)], 14, 0⟩) ∧
      (Conflicts [⟨[1, 2], [5], [(7, 3)], 14, 0⟩, ⟨[1, 2], [5], [(7, 4)], 14, 0⟩]
          ⟨[1, 2], [5], [(7, 3)], 14, 0⟩ ⟨[1, 2], [5], [(7, 4)], 14, 0⟩ →
        ((⟨[1, 2], [5], [(7, 3)], 14, 0⟩ : Vertex).outputs : Multiset (ℕ × ℕ)) ≠
          ((⟨[1, 2], [5], [(7, 4)], 14, 0⟩ : Vertex).outputs : Multiset (ℕ × ℕ)) →
        txId ⟨[1, 2], [5], [(7, 4)], 14, 0⟩ ∈
            conflictWith [⟨[1, 2], [5], [(7, 3)], 14, 0⟩, ⟨[1, 2], [5], [(7, 4)], 14, 0⟩]
              ⟨[1, 2], [5], [(7, 3)], 14, 0⟩ ∧
          txId ⟨[1, 2], [5], [(7, 4)], 14, 0⟩ ∉
            twinsOf [⟨[1, 2], [5], [(7, 3)], 14, 0⟩, ⟨[1, 2], [5], [(7, 4)], 14, 0⟩]
              ⟨[1, 2], [5], [(7, 3)], 14, 0⟩) :=
  twins_subset_conflicts_and_symmetric _ _ _ (by simp) (by simp)

/-- C2: a transaction T' built from T by swapping T's two distinct parents,
keeping identical inputs and outputs, has a different id, and once both are
processed each appears in the other's conflict_with set and twins set. -/
theorem twin_by_parent_swap (S : List Vertex) (T T' : Vertex) (p1 p2 : ℕ)
    (hp : T.parents = [p1, p2]) (hswap : T' = { T with parents := [p2, p1] })
    (hne : p1 ≠ p2) (hin : T.inputs ≠ [])
    (hT : T ∈ S) (hT' : T' ∈ S) (hnr : ¬ Related S T T') :
    txId T ≠ txId T' ∧
      txId T' ∈ conflictWith S T ∧ txId T ∈ conflictWith S T' ∧
      txId T' ∈ twinsOf S T ∧ txId T ∈ twinsOf S T' := by
  have hTne : T ≠ T' := by
    intro h
    have h2 : ([p1, p2] : List ℕ) = [p2, p1] := by
      rw [← hp]
      conv_lhs => rw [h, hswap]
    simp only [List.cons.injEq, and_true] at h2
    exact hne h2.1
  have hid : txId T ≠ txId T' := fun h => hTne (txId_injective h)
  have hinputs : T'.inputs = T.inputs := by rw [hswap]
  have houtputs : T'.outputs = T.outputs := by rw [hswap]
  have hshare : SharesInput T T' := by
    obtain ⟨i, his⟩ := List.exists_mem_of_ne_nil T.inputs hin
    exact ⟨i, his, by rw [hinputs]; exact his⟩
  have hconf : Conflicts S T T' := ⟨hid, hshare, hnr⟩
  have htwin : IsTwin S T T' := ⟨hconf, hinputs.symm, by rw [houtputs]⟩
  exact ⟨hid, mem_conflictWith.mpr ⟨T', hT', hconf, rfl⟩,
    mem_conflictWith.mpr ⟨T, hT, conflicts_symm hconf, rfl⟩,
    mem_twinsOf.mpr ⟨T', hT', htwin, rfl⟩,
    mem_twinsOf.mpr ⟨T, hT, isTwin_symm htwin, rfl⟩⟩

/-- C2 witness: the concrete parent-swap scenario of the twin-transaction
test, with parents 1 and 2 swapped. -/
theorem twin_by_parent_swap_witness :
    txId ⟨[1, 2], [5], [(7, 3)], 14, 0⟩ ≠ txId ⟨[2, 1], [5], [(7, 3)], 14, 0⟩ ∧
      txId ⟨[2, 1], [5], [(7, 3)], 14, 0⟩ ∈
          conflictWith [⟨[1, 2], [5], [(7, 3)], 14, 0⟩, ⟨[2, 1], [5], [(7, 3)], 14, 0⟩]
            ⟨[1, 2], [5], [(7, 3)], 14, 0⟩ ∧
        txId ⟨[1, 2], [5], [(7, 3)], 14, 0⟩ ∈
          conflictWith [⟨[1, 2], [5], [(7, 3)], 14, 0⟩, ⟨[2, 1], [5], [(7, 3)], 14, 0⟩]
            ⟨[2, 1], [5], [(7, 3)], 14, 0⟩ ∧
        txId ⟨[2, 1], [5], [(7, 3)], 14, 0⟩ ∈
          twinsOf [⟨[1, 2], [5], [(7, 3)], 14, 0⟩, ⟨[2, 1], [5], [(7, 3)], 14, 0⟩]
            ⟨[1, 2], [5], [(7, 3)], 14, 0⟩ ∧
        txId ⟨[1, 2], [5], [(7, 3)], 14, 0⟩ ∈
          twinsOf [⟨[1, 2], [5], [(7, 3)], 14, 0⟩, ⟨[2, 1], [5], [(7, 3)], 14, 0⟩]
            ⟨[2, 1], [5], [(7, 3)], 14, 0⟩ :=
  twin_by_parent_swap _ _ _ 1 2 rfl rfl (by decide) (by decide)
    (by simp) (by simp) (by decide)

/-- Modelled from the spec: whether conflict-set member `m` (an
(id, accumulated weight) pair) accumulated strictly more weight than every
other member beyond the tolerance, using the comparison idiom documented in
`hathor/conf/settings.py`: `w1 > w2 + WEIGHT_TOL` means strictly greater. -/
def beatsAll (cs : List (ℕ × ℚ)) (m : ℕ × ℚ) : Bool :=
  cs.all (fun u => u.1 == m.1 || decide (u.2 + WEIGHT_TOL < m.2))

/-- Modelled from the spec: ConflictResolver.resolve winner selection — the
member of the conflict set that beats every other member beyond the
tolerance, when one exists. -/
def strictWinner (cs : List (ℕ × ℚ)) : Option (ℕ × ℚ) :=
  cs.find? (beatsAll cs)

/-- Modelled from the spec: the contribution of one conflict set to member
`m`'s voided_by — the winner's entry for this conflict is cleared and every
loser's entry gains the winner's id.  When no member beats every other
beyond the tolerance there is no winner; in that case, as pinned by the
repository's own test `tests/p2p/test_twin_tx.py` (after propagating two
equal-weight twins, each has `voided_by` equal to its own hash), every member
of the conflict set is voided by its own id. -/
def resolveVoidedBy (cs : List (ℕ × ℚ)) (m : ℕ × ℚ) : Finset ℕ :=
  match strictWinner cs with
  | some w => if m.1 = w.1 then ∅ else {w.1}
  | none => {m.1}

/-- Modelled from the spec: accumulated weight — the vertex's own weight plus
the weights of every processed descendant (every vertex in `S` that has `v`
among its ancestors); the spec's "sum in log2 space" is additive. -/
def accWeight (S : List Vertex) (v : Vertex) : ℚ :=
  v.weight +
    ((S.filter (fun u => decide (txId v ∈ ancestorIds S S.length u))).map Vertex.weight).sum

/-- Modelled from the spec: the processed vertices in conflict with `v`. -/
def conflictList (S : List Vertex) (v : Vertex) : List Vertex :=
  S.filter (fun u => decide (Conflicts S v u))

/-- Modelled from the spec: the `voided_by` metadata contributed by `v`'s own
conflict set — resolving the set made of `v` together with every processed
vertex in conflict with it (transitive voiding propagation from ancestors is
outside the claims about this resolution step). -/
def voidedBy (S : List Vertex) (v : Vertex) : Finset ℕ :=
  resolveVoidedBy ((v :: conflictList S v).map (fun u => (txId u, accWeight S u)))
    (txId v, accWeight S v)

lemma beatsAll_iff (cs : List (ℕ × ℚ)) (m : ℕ × ℚ) :
    beatsAll cs m = true ↔ ∀ u ∈ cs, u.1 = m.1 ∨ u.2 + WEIGHT_TOL < m.2 := by
  simp [beatsAll, List.all_eq_true, Bool.or_eq_true, beq_iff_eq, decide_eq_true_eq]

/-- C1 counterexample: a conflict set of two members with equal accumulated
weight (ids 1 and 2, both weight 10, so all weights are within the tolerance
of each other).  Resolving voids both members, each by its own id — the
member with the lexicographically smaller id (1) does not win and does not
end up with a cleared voided_by, contradicting the claimed tie-break; this is
exactly the behaviour the repository test `tests/p2p/test_twin_tx.py` asserts
for two equal-weight twins. -/
theorem resolve_equal_weight_tie_both_voided :
    resolveVoidedBy [(1, 10), (2, 10)] (1, 10) = {1} ∧
      resolveVoidedBy [(1, 10), (2, 10)] (2, 10) = {2} ∧
      ¬ (resolveVoidedBy [(1, 10), (2, 10)] (1, 10) = ∅) := by
  have hsw : strictWinner [((1 : ℕ), (10 : ℚ)), (2, 10)] = none := by
    rw [strictWinner, List.find?_eq_none]
    intro x hx hba
    have hall := (beatsAll_iff _ x).mp hba
    have hx2 : x = ((1 : ℕ), (10 : ℚ)) ∨ x = ((2 : ℕ), (10 : ℚ)) := by
      simpa using hx
    rcases hx2 with hx2 | hx2 <;> subst hx2
    · rcases hall (2, 10) (by simp) with h | h
      · simp at h
      · norm_num [WEIGHT_TOL] at h
    · rcases hall (1, 10) (by simp) with h | h
      · simp at h
      · norm_num [WEIGHT_TOL] at h
  refine ⟨?_, ?_, ?_⟩
  · simp only [resolveVoidedBy, hsw]
  · simp only [resolveVoidedBy, hsw]
  · simp only [resolveVoidedBy, hsw]
    simp

/-- C1 (amended): when one member of the conflict set accumulated strictly
more weight than every other member beyond the tolerance WEIGHT_TOL, it is
the winner: its voided_by entry for this conflict is cleared and every other
member's voided_by gains the winner's id.  When no member beats every other
beyond the tolerance — in particular when all accumulated weights are within
the tolerance of each other, as with two equal-weight twins — there is no
winner and every member of the conflict set is voided by its own id. -/
theorem resolve_strict_winner_or_tie (cs : List (ℕ × ℚ)) :
    (∀ m ∈ cs, (∀ u ∈ cs, u.1 ≠ m.1 → u.2 + WEIGHT_TOL < m.2) →
        resolveVoidedBy cs m = ∅ ∧
          ∀ u ∈ cs, u.1 ≠ m.1 → resolveVoidedBy cs u = {m.1}) ∧
      ((∀ m ∈ cs, ∃ u ∈ cs, u.1 ≠ m.1 ∧ m.2 ≤ u.2 + WEIGHT_TOL) →
        ∀ u ∈ cs, resolveVoidedBy cs u = {u.1}) := by
  constructor
  · intro m hm hbeats
    have hbAll : beatsAll cs m = true := by
      rw [beatsAll_iff]
      intro u hu
      by_cases h : u.1 = m.1
      · exact Or.inl h
      · exact Or.inr (hbeats u hu h)
    have hfind : ∃ w, strictWinner cs = some w := by
      cases hsw : strictWinner cs with
      | some w => exact ⟨w, rfl⟩
      | none => exact absurd hbAll (List.find?_eq_none.mp hsw m hm)
    obtain ⟨w, hw⟩ := hfind
    have hwmem : w ∈ cs := List.mem_of_find?_eq_some hw
    have hwba : beatsAll cs w = true := List.find?_some hw
    have hwm : w.1 = m.1 := by
      by_contra hne
      have h1 : w.2 + WEIGHT_TOL < m.2 := hbeats w hwmem hne
      have h2 : m.2 + WEIGHT_TOL < w.2 := by
        rcases (beatsAll_iff cs w).mp hwba m hm with h | h
        · exact absurd h.symm hne
        · exact h
      have hTOL : (0 : ℚ) < WEIGHT_TOL := by norm_num [WEIGHT_TOL]
      linarith
    constructor
    · simp only [resolveVoidedBy, hw]
      rw [if_pos hwm.symm]
    · intro u hu hune
      simp only [resolveVoidedBy, hw]
      rw [if_neg (fun h => hune (h.trans hwm)), hwm]
  · intro htie u hu
    have hnone : strictWinner cs = none := by
      rw [strictWinner, List.find?_eq_none]
      intro x hx hba
      obtain ⟨y, hy, hyne, hyle⟩ := htie x hx
      rcases (beatsAll_iff cs x).mp hba y hy with h | h
      · exact hyne h
      · linarith
    simp only [resolveVoidedBy, hnone]

/-- C1 witness: a two-member conflict set where the first member's weight
strictly exceeds the second's beyond the tolerance — the first member's
voided_by is cleared and the loser gains the winner's id. -/
theorem resolve_strict_winner_or_tie_witness :
    resolveVoidedBy [(1, 10), (2, 5)] (1, 10) = ∅ ∧
      ∀ u ∈ [((1 : ℕ), (10 : ℚ)), (2, 5)], u.1 ≠ 1 →
        resolveVoidedBy [(1, 10), (2, 5)] u = {1} :=
  (resolve_strict_winner_or_tie [(1, 10), (2, 5)]).1 (1, 10) (by simp) (by
    intro u hu hne
    have hu2 : u = ((1 : ℕ), (10 : ℚ)) ∨ u = ((2 : ℕ), (5 : ℚ)) := by simpa using hu
    rcases hu2 with hu2 | hu2 <;> subst hu2
    · exact absurd rfl hne
    · norm_num [WEIGHT_TOL])

/-- Modelled from the spec: WeightModel.next_block_difficulty (§4.1), whose
implementation is not part of the shown source.  Per the spec it estimates
the hash rate from the rolling window of recent solve times and derives a raw
target weight in log2 space — `rawEstimate` stands for that estimate, which
can be arbitrarily far from the previous weight when the hash rate changes
sharply — then clamps the weight change per step to
±BLOCK_DIFFICULTY_MAX_DW and never lets the weight fall below
MIN_BLOCK_WEIGHT. -/
def calculateNextWeight (prevWeight rawEstimate : ℚ) : ℚ :=
  max MIN_BLOCK_WEIGHT
    (min (prevWeight + BLOCK_DIFFICULTY_MAX_DW)
      (max (prevWeight - BLOCK_DIFFICULTY_MAX_DW) rawEstimate))

/-- C5: provided the previous block's weight meets the network minimum, the
next computed weight differs from it by at most BLOCK_DIFFICULTY_MAX_DW
(0.25) for every hash-rate estimate, however sharp the change, and it never
falls below MIN_BLOCK_WEIGHT (21). -/
theorem next_weight_clamped_and_min (prev raw : ℚ)
    (hprev : MIN_BLOCK_WEIGHT ≤ prev) :
    |calculateNextWeight prev raw - prev| ≤ BLOCK_DIFFICULTY_MAX_DW ∧
      MIN_BLOCK_WEIGHT ≤ calculateNextWeight prev raw := by
  have hdw : (0 : ℚ) ≤ BLOCK_DIFFICULTY_MAX_DW := by norm_num [BLOCK_DIFFICULTY_MAX_DW]
  set c := min (prev + BLOCK_DIFFICULTY_MAX_DW)
    (max (prev - BLOCK_DIFFICULTY_MAX_DW) raw) with hc
  have h1 : prev - BLOCK_DIFFICULTY_MAX_DW ≤ c :=
    le_min (by linarith) (le_max_left _ _)
  have h2 : c ≤ prev + BLOCK_DIFFICULTY_MAX_DW := min_le_left _ _
  have hres : calculateNextWeight prev raw = max MIN_BLOCK_WEIGHT c := rfl
  constructor
  · rw [hres, abs_le]
    constructor
    · have h3 := le_max_right MIN_BLOCK_WEIGHT c
      linarith
    · have h4 : max MIN_BLOCK_WEIGHT c ≤ prev + BLOCK_DIFFICULTY_MAX_DW :=
        max_le (by linarith) h2
      linarith
  · rw [hres]
    exact le_max_left _ _

/-- C5 witness: previous weight 21 and a hash-rate estimate asking for weight
121 (solve times collapsing to a small fraction of the target): the computed
weight moves by at most 0.25 and stays at or above the minimum. -/
theorem next_weight_clamped_and_min_witness :
    |calculateNextWeight 21 121 - 21| ≤ BLOCK_DIFFICULTY_MAX_DW ∧
      MIN_BLOCK_WEIGHT ≤ calculateNextWeight 21 121 :=
  next_weight_clamped_and_min 21 121 (by norm_num [MIN_BLOCK_WEIGHT])

/-- Modelled from the spec: the consensus error kinds of §7. -/
inductive ConsensusError where
  | missingParent
  | weightTooLow
  | invalidTimestamp
  | storeUnavailable
  | invariantViolation
deriving DecidableEq

/-- Modelled from the spec: causal completeness — every parent id of the new
vertex must already exist in the processed state. -/
def hasAllParents (S : List Vertex) (v : Vertex) : Bool :=
  v.parents.all (fun p => S.any (fun u => txId u == p))

/-- Modelled from the spec: the new vertex's timestamp must be at least every
parent's timestamp. -/
def parentTimestampsOk (S : List Vertex) (v : Vertex) : Bool :=
  S.all (fun u => !(decide (txId u ∈ v.parents)) || decide (u.timestamp ≤ v.timestamp))

/-- Modelled from the spec: the defensive consensus-invariant check of §7
("detected non-monotonic accumulated weight"): committing `v` must not lower
any existing vertex's accumulated weight. -/
def invariantOk (S : List Vertex) (v : Vertex) : Bool :=
  S.all (fun u => decide (accWeight S u ≤ accWeight (v :: S) u))

/-- Modelled from the spec: ConsensusEngine.process (§4.6) for the
transaction vertex kind.  Validation — missing parents, weight below
MIN_TX_WEIGHT, timestamp beyond `now + MAX_FUTURE_TIMESTAMP_ALLOWED` or
before a parent's, store availability, and the defensive invariant check —
happens before the single atomic commit of step 8; on any failure the state
is returned untouched beside the error, otherwise the vertex is committed. -/
def process (now : ℤ) (storeOk : Bool) (S : List Vertex) (v : Vertex) :
    List Vertex × Option ConsensusError :=
  if hasAllParents S v = false then (S, some ConsensusError.missingParent)
  else if v.weight < MIN_TX_WEIGHT then (S, some ConsensusError.weightTooLow)
  else if now + MAX_FUTURE_TIMESTAMP_ALLOWED < v.timestamp ∨ parentTimestampsOk S v = false then
    (S, some ConsensusError.invalidTimestamp)
  else if storeOk = false then (S, some ConsensusError.storeUnavailable)
  else if invariantOk S v = false then (S, some ConsensusError.invariantViolation)
  else (v :: S, none)

/-- C6: process is atomic with respect to errors — whenever it fails with any
error kind, the vertex list is unchanged and therefore every vertex's derived
metadata (accumulated weight, conflict_with, twins, voided_by) after the
failed call equals its value before it. -/
theorem process_error_no_mutation (now : ℤ) (storeOk : Bool) (S : List Vertex)
    (v : Vertex) (e : ConsensusError)
    (herr : (process now storeOk S v).2 = some e) :
    (process now storeOk S v).1 = S ∧
      ∀ u : Vertex,
        accWeight (process now storeOk S v).1 u = accWeight S u ∧
          conflictWith (process now storeOk S v).1 u = conflictWith S u ∧
          twinsOf (process now storeOk S v).1 u = twinsOf S u ∧
          voidedBy (process now storeOk S v).1 u = voidedBy S u := by
  have hstate : (process now storeOk S v).1 = S := by
    unfold process at herr ⊢
    split_ifs at herr ⊢ <;> simp_all
  refine ⟨hstate, fun u => ?_⟩
  rw [hstate]
  exact ⟨rfl, rfl, rfl, rfl⟩

/-- C6 witness: processing a vertex with a dangling parent reference over the
empty state fails with MissingParent and leaves the state untouched. -/
theorem process_error_no_mutation_witness :
    (process 0 true [] ⟨[99], [], [], 14, 0⟩).2 = some ConsensusError.missingParent ∧
      (process 0 true [] ⟨[99], [], [], 14, 0⟩).1 = [] :=
  ⟨rfl, (process_error_no_mutation 0 true [] ⟨[99], [], [], 14, 0⟩
    ConsensusError.missingParent rfl).1⟩

lemma mem_foldr_union {α : Type} (f : α → Finset ℕ) (L : List α) (x : ℕ) :
    x ∈ L.foldr (fun u acc => f u ∪ acc) ∅ ↔ ∃ u ∈ L, x ∈ f u := by
  induction L with
  | nil => simp
  | cons a l ih =>
    simp only [List.foldr_cons, Finset.mem_union, ih, List.mem_cons]
    constructor
    · rintro (h | ⟨u, hu, hx⟩)
      · exact ⟨a, Or.inl rfl, h⟩
      · exact ⟨u, Or.inr hu, hx⟩
    · rintro ⟨u, hu | hu, hx⟩
      · subst hu
        exact Or.inl hx
      · exact Or.inr ⟨u, hu, hx⟩

lemma ancestorIds_mono (S : List Vertex) (w : Vertex) :
    ∀ fuel fuel', fuel ≤ fuel' → ∀ (u : Vertex) (x : ℕ),
      x ∈ ancestorIds S fuel u → x ∈ ancestorIds (w :: S) fuel' u := by
  intro fuel
  induction fuel with
  | zero =>
    intro fuel' _ u x hx
    simp [ancestorIds] at hx
  | succ n ih =>
    intro fuel' hle u x hx
    obtain ⟨m, rfl⟩ : ∃ m, fuel' = m + 1 := ⟨fuel' - 1, by omega⟩
    simp only [ancestorIds] at hx ⊢
    rcases Finset.mem_union.mp hx with h | h
    · exact Finset.mem_union_left _ h
    · rcases (mem_foldr_union _ _ _).mp h with ⟨z, hz, hxz⟩
      have hzmem : z ∈ List.filter (fun u2 => decide (txId u2 ∈ u.parents)) (w :: S) := by
        rw [List.filter_cons]
        split
        · exact List.mem_cons_of_mem _ hz
        · exact hz
      exact Finset.mem_union_right _
        ((mem_foldr_union _ _ _).mpr ⟨z, hzmem, ih m (by omega) z x hxz⟩)

lemma weight_sum_filter_mono (S : List Vertex) (p q : Vertex → Bool)
    (hpq : ∀ u ∈ S, p u = true → q u = true)
    (hnn : ∀ u ∈ S, 0 ≤ u.weight) :
    ((S.filter p).map Vertex.weight).sum ≤ ((S.filter q).map Vertex.weight).sum := by
  induction S with
  | nil => simp
  | cons a l ih =>
    have ihl := ih (fun u hu hp => hpq u (List.mem_cons_of_mem _ hu) hp)
      (fun u hu => hnn u (List.mem_cons_of_mem _ hu))
    have ha : 0 ≤ a.weight := hnn a (List.mem_cons_self a l)
    rw [List.filter_cons, List.filter_cons]
    by_cases hp : p a = true
    · have hq := hpq a (List.mem_cons_self a l) hp
      rw [if_pos hp, if_pos hq]
      simp only [List.map_cons, List.sum_cons]
      linarith
    · by_cases hq : q a = true
      · rw [if_neg hp, if_pos hq]
        simp only [List.map_cons, List.sum_cons]
        linarith
      · rw [if_neg hp, if_neg hq]
        exact ihl

lemma accWeight_cons_mono (S : List Vertex) (w v : Vertex)
    (hnnS : ∀ u ∈ S, 0 ≤ u.weight) (hw : 0 ≤ w.weight) :
    accWeight S v ≤ accWeight (w :: S) v := by
  unfold accWeight
  rw [List.filter_cons]
  have hpp' : ∀ u ∈ S,
      (fun u2 => decide (txId v ∈ ancestorIds S S.length u2)) u = true →
      (fun u2 => decide (txId v ∈ ancestorIds (w :: S) (w :: S).length u2)) u = true := by
    intro u _ hp
    simp only [decide_eq_true_eq] at hp ⊢
    exact ancestorIds_mono S w S.length (w :: S).length (by simp) u (txId v) hp
  have hsum := weight_sum_filter_mono S
    (fun u2 => decide (txId v ∈ ancestorIds S S.length u2))
    (fun u2 => decide (txId v ∈ ancestorIds (w :: S) (w :: S).length u2)) hpp' hnnS
  split
  · simp only [List.map_cons, List.sum_cons]
    linarith
  · linarith

lemma process_result (now : ℤ) (storeOk : Bool) (S : List Vertex) (v : Vertex) :
    (process now storeOk S v).1 = S ∨
      ((process now storeOk S v).1 = v :: S ∧ MIN_TX_WEIGHT ≤ v.weight) := by
  unfold process
  split_ifs with h1 h2 h3 h4 h5
  · exact Or.inl rfl
  · exact Or.inl rfl
  · exact Or.inl rfl
  · exact Or.inl rfl
  · exact Or.inl rfl
  · exact Or.inr ⟨rfl, not_lt.mp h2⟩

/-- C7: accumulated weight is monotone at the DAG level — for every vertex,
a `process` call (whether it commits a new descendant or fails) never
decreases its accumulated weight, provided all processed weights are
non-negative (every accepted vertex's weight meets the positive type-specific
minimum). -/
theorem acc_weight_monotone_process (now : ℤ) (storeOk : Bool) (S : List Vertex)
    (w : Vertex) (hnn : ∀ u ∈ S, 0 ≤ u.weight) (v : Vertex) :
    accWeight S v ≤ accWeight (process now storeOk S w).1 v := by
  rcases process_result now storeOk S w with h | ⟨h, hmin⟩
  · rw [h]
  · rw [h]
    refine accWeight_cons_mono S w v hnn (le_trans ?_ hmin)
    norm_num [MIN_TX_WEIGHT]

/-- C7 witness: a concrete one-vertex state and a processed vertex; the
existing vertex's accumulated weight does not decrease. -/
theorem acc_weight_monotone_process_witness :
    accWeight [⟨[], [], [], 14, 0⟩] ⟨[], [], [], 14, 0⟩ ≤
      accWeight (process 0 true [⟨[], [], [], 14, 0⟩] ⟨[99], [3], [(4, 5)], 14, 0⟩).1
        ⟨[], [], [], 14, 0⟩ :=
  acc_weight_monotone_process 0 true [⟨[], [], [], 14, 0⟩] ⟨[99], [3], [(4, 5)], 14, 0⟩
    (by
      intro u hu
      simp only [List.mem_singleton] at hu
      subst hu
      norm_num)
    ⟨[], [], [], 14, 0⟩

end Hathor
